import Mathlib

/-!
Shallow embedding of the computation core of src/financial_dashboard.py:
the indicator engine in fetch_data (lines 40-65), the allocation parsing
loop (lines 31-37) and the portfolio analytics in portfolio_performance
(lines 89-104).  Prices and weights are modelled as rationals.  Pandas NaN
cells are modelled by Option; the IEEE special values that the RSI division
can produce are modelled by an explicit small value type.
-/

namespace FinDash

/-- Trailing window of n bars ending at index i inclusive, as a pandas
rolling window sees it: the last n elements of the first i+1. -/
def trailing (n : Nat) (c : List ℚ) (i : Nat) : List ℚ :=
  (c.take (i + 1)).drop (i + 1 - n)

/-- Embeds one cell of a pandas rolling(n).mean() over the close column:
defined once the trailing window holds n observations, NaN (none) before
that. -/
def rollingMeanAt (n : Nat) (c : List ℚ) (i : Nat) : Option ℚ :=
  if n ≤ i + 1 ∧ i < c.length then some ((trailing n c i).sum / (n : ℚ)) else none

/-- Column 50_SMA of fetch_data (line 48). -/
def sma50at (c : List ℚ) (i : Nat) : Option ℚ := rollingMeanAt 50 c i

/-- Column 200_SMA of fetch_data (line 49). -/
def sma200at (c : List ℚ) (i : Nat) : Option ℚ := rollingMeanAt 200 c i

/-- Smoothing factor of ewm(span=20): 2/(20+1). -/
def alpha20 : ℚ := 2 / 21

/-- Tail of the adjust=False exponential moving average recurrence. -/
def emaRec (a : ℚ) (prev : ℚ) : List ℚ → List ℚ
  | [] => []
  | x :: xs => (a * x + (1 - a) * prev) :: emaRec a (a * x + (1 - a) * prev) xs

/-- Column 20_EMA of fetch_data (line 50): ewm(span=20, adjust=False).mean()
is seeded with the first close and then follows the recurrence
y[i] = a*x[i] + (1-a)*y[i-1]. -/
def ema20 (c : List ℚ) : List ℚ :=
  match c with
  | [] => []
  | x :: xs => x :: emaRec alpha20 x xs

theorem trailing_length (n : Nat) (c : List ℚ) (i : Nat)
    (h1 : n ≤ i + 1) (h2 : i < c.length) : (trailing n c i).length = n := by
  simp only [trailing, List.length_drop, List.length_take]
  omega

theorem emaRec_length (a p : ℚ) (xs : List ℚ) : (emaRec a p xs).length = xs.length := by
  induction xs generalizing p with
  | nil => rfl
  | cons x t ih => simp [emaRec, ih]

theorem emaRec_getD (a : ℚ) (xs : List ℚ) :
    ∀ (p : ℚ) (i : Nat), i < xs.length →
      (emaRec a p xs).getD i 0 =
        a * xs.getD i 0 + (1 - a) * (if i = 0 then p else (emaRec a p xs).getD (i - 1) 0) := by
  induction xs with
  | nil => intro p i h; simp at h
  | cons x t ih =>
    intro p i h
    cases i with
    | zero => simp [emaRec]
    | succ k =>
      have hk : k < t.length := by simpa using Nat.lt_of_succ_lt_succ h
      simp only [emaRec, List.getD_cons_succ]
      rw [ih _ k hk]
      cases k with
      | zero => simp [emaRec]
      | succ m => simp [emaRec, List.getD_cons_succ]

/-- C5: the 50-bar (resp. 200-bar) simple moving average is defined at index
i exactly when at least 50 (resp. 200) bars exist up to i, i.e. 49 ≤ i
(resp. 199 ≤ i); where defined it is the arithmetic mean of close over the
trailing window of exactly 50 (resp. 200) bars ending at i inclusive. -/
theorem C5_sma_trailing_window (c : List ℚ) (i : Nat) (hi : i < c.length) :
    ((sma50at c i).isSome ↔ 49 ≤ i) ∧
    ((sma200at c i).isSome ↔ 199 ≤ i) ∧
    (49 ≤ i → (trailing 50 c i).length = 50 ∧
      sma50at c i = some ((trailing 50 c i).sum / 50)) ∧
    (199 ≤ i → (trailing 200 c i).length = 200 ∧
      sma200at c i = some ((trailing 200 c i).sum / 200)) := by
  refine ⟨?_, ?_, ?_, ?_⟩
  · simp only [sma50at, rollingMeanAt]
    split <;> rename_i h <;> simp <;> omega
  · simp only [sma200at, rollingMeanAt]
    split <;> rename_i h <;> simp <;> omega
  · intro h49
    refine ⟨trailing_length 50 c i (by omega) hi, ?_⟩
    simp only [sma50at, rollingMeanAt]
    rw [if_pos ⟨by omega, hi⟩]
    norm_num
  · intro h199
    refine ⟨trailing_length 200 c i (by omega) hi, ?_⟩
    simp only [sma200at, rollingMeanAt]
    rw [if_pos ⟨by omega, hi⟩]
    norm_num

/-- Witness for C5 at the concrete series [1,2,3], index 2. -/
theorem C5_sma_trailing_window_w :
    (2 < ([1, 2, 3] : List ℚ).length) ∧
    (((sma50at [1, 2, 3] 2).isSome ↔ 49 ≤ 2) ∧
      ((sma200at [1, 2, 3] 2).isSome ↔ 199 ≤ 2) ∧
      (49 ≤ 2 → (trailing 50 [1, 2, 3] 2).length = 50 ∧
        sma50at [1, 2, 3] 2 = some ((trailing 50 [1, 2, 3] 2).sum / 50)) ∧
      (199 ≤ 2 → (trailing 200 [1, 2, 3] 2).length = 200 ∧
        sma200at [1, 2, 3] 2 = some ((trailing 200 [1, 2, 3] 2).sum / 200))) :=
  ⟨by decide, C5_sma_trailing_window [1, 2, 3] 2 (by decide)⟩

/-- C6: for a non-empty close series the 20-bar EMA column has one value per
bar, its first value is close[0] exactly, and at any later index i it
satisfies ema20[i] = a*close[i] + (1-a)*ema20[i-1] with a = 2/21. -/
theorem C6_ema_recurrence (c : List ℚ) (i : Nat) (hne : c ≠ [])
    (hi : 0 < i) (hlen : i < c.length) :
    (ema20 c).length = c.length ∧
    (ema20 c).getD 0 0 = c.getD 0 0 ∧
    (ema20 c).getD i 0 = alpha20 * c.getD i 0 + (1 - alpha20) * (ema20 c).getD (i - 1) 0 := by
  match c, hne with
  | x :: xs, _ =>
    refine ⟨by simp [ema20, emaRec_length], by simp [ema20], ?_⟩
    match i, hi with
    | (k + 1), _ =>
      have hk : k < xs.length := by simpa using Nat.lt_of_succ_lt_succ hlen
      simp only [ema20, List.getD_cons_succ]
      rw [emaRec_getD alpha20 xs x k hk]
      cases k with
      | zero => simp
      | succ m => simp [List.getD_cons_succ]

/-- Witness for C6 at the concrete series [3,5], index 1. -/
theorem C6_ema_recurrence_w :
    (([3, 5] : List ℚ) ≠ [] ∧ 0 < 1 ∧ 1 < ([3, 5] : List ℚ).length) ∧
    ((ema20 [3, 5]).length = ([3, 5] : List ℚ).length ∧
      (ema20 [3, 5]).getD 0 0 = ([3, 5] : List ℚ).getD 0 0 ∧
      (ema20 [3, 5]).getD 1 0 =
        alpha20 * ([3, 5] : List ℚ).getD 1 0 + (1 - alpha20) * (ema20 [3, 5]).getD (1 - 1) 0) :=
  ⟨⟨by decide, by decide, by decide⟩,
    C6_ema_recurrence [3, 5] 1 (by decide) (by decide) (by decide)⟩

/-- Arithmetic mean of a pandas Series of rationals. -/
def pmean (xs : List ℚ) : ℚ := xs.sum / (xs.length : ℚ)

/-- Sample variance with the n-1 denominator: the square of a pandas
std(ddof=1) over the same values. -/
def svarQ (xs : List ℚ) : ℚ :=
  ((xs.map (fun x => (x - pmean xs) * (x - pmean xs))).sum) / ((xs.length : ℚ) - 1)

/-- Rolling 20-bar sample variance at index i: the square of one cell of
close_series.rolling(20).std() (line 54), NaN until the window is full. -/
def rollingVarAt (c : List ℚ) (i : Nat) : Option ℚ :=
  if 20 ≤ i + 1 ∧ i < c.length then some (svarQ (trailing 20 c i)) else none

/-- One cell of close_series.rolling(20).std() (line 54), as a real. -/
noncomputable def std20at (c : List ℚ) (i : Nat) : Option ℝ :=
  (rollingVarAt c i).map (fun v => Real.sqrt (v : ℝ))

/-- Value of column 20_EMA at index i. -/
def ema20at (c : List ℚ) (i : Nat) : ℚ := (ema20 c).getD i 0

/-- Column Upper_BB (line 55): 20_EMA + 2 * rolling_std; a NaN cell of the
rolling std propagates through the elementwise arithmetic. -/
noncomputable def upperBBat (c : List ℚ) (i : Nat) : Option ℝ :=
  (std20at c i).map (fun s => (ema20at c i : ℝ) + 2 * s)

/-- Column Lower_BB (line 56): 20_EMA - 2 * rolling_std. -/
noncomputable def lowerBBat (c : List ℚ) (i : Nat) : Option ℝ :=
  (std20at c i).map (fun s => (ema20at c i : ℝ) - 2 * s)

/-- C7: both bands are defined exactly where the rolling 20-bar standard
deviation is defined, which is exactly from index 19 on; where defined,
upperBand = ema20 + 2*std20 and lowerBand = ema20 - 2*std20, with std20 the
square root of the sample (n-1 denominator) variance of the trailing window
of exactly 20 closes. -/
theorem C7_bollinger_bands (c : List ℚ) (i : Nat) (hi : i < c.length) :
    ((std20at c i).isSome ↔ 19 ≤ i) ∧
    ((upperBBat c i).isSome ↔ (std20at c i).isSome) ∧
    ((lowerBBat c i).isSome ↔ (std20at c i).isSome) ∧
    (19 ≤ i →
      (trailing 20 c i).length = 20 ∧
      upperBBat c i =
        some ((ema20at c i : ℝ) + 2 * Real.sqrt ((svarQ (trailing 20 c i) : ℚ) : ℝ)) ∧
      lowerBBat c i =
        some ((ema20at c i : ℝ) - 2 * Real.sqrt ((svarQ (trailing 20 c i) : ℚ) : ℝ))) := by
  refine ⟨?_, ?_, ?_, ?_⟩
  · simp only [std20at, rollingVarAt]
    split <;> rename_i h <;> simp <;> omega
  · simp [upperBBat]
  · simp [lowerBBat]
  · intro h19
    refine ⟨trailing_length 20 c i (by omega) hi, ?_, ?_⟩ <;>
      simp [upperBBat, lowerBBat, std20at, rollingVarAt, h19, hi]

/-- Witness for C7 at the concrete series [1], index 0 (window not full). -/
theorem C7_bollinger_bands_w :
    (0 < ([1] : List ℚ).length) ∧
    (((std20at [1] 0).isSome ↔ 19 ≤ 0) ∧
      ((upperBBat [1] 0).isSome ↔ (std20at [1] 0).isSome) ∧
      ((lowerBBat [1] 0).isSome ↔ (std20at [1] 0).isSome) ∧
      (19 ≤ 0 →
        (trailing 20 [1] 0).length = 20 ∧
        upperBBat [1] 0 =
          some ((ema20at [1] 0 : ℝ) + 2 * Real.sqrt ((svarQ (trailing 20 [1] 0) : ℚ) : ℝ)) ∧
        lowerBBat [1] 0 =
          some ((ema20at [1] 0 : ℝ) - 2 * Real.sqrt ((svarQ (trailing 20 [1] 0) : ℚ) : ℝ)))) :=
  ⟨by decide, C7_bollinger_bands [1] 0 (by decide)⟩

/-- Sample variance of the weighted-return series: pandas Series.std() with
its default ddof=1 is NaN on fewer than two observations, so the variance is
only defined from two observations on. -/
def pvar (xs : List ℚ) : Option ℚ := if 2 ≤ xs.length then some (svarQ xs) else none

/-- portfolio_return.std() (line 101), as a real. -/
noncomputable def pstd (xs : List ℚ) : Option ℝ := (pvar xs).map (fun v => Real.sqrt (v : ℝ))

/-- Sharpe-like metric (line 102): mean over std when std is not 0, the
literal 0 when std is 0; a NaN std propagates to a NaN metric because
NaN != 0 holds in Python. -/
noncomputable def sharpeOf (xs : List ℚ) : Option ℝ :=
  (pstd xs).map (fun sd => if sd ≠ 0 then (pmean xs : ℝ) / sd else 0)

theorem svarQ_nonneg (xs : List ℚ) (h2 : 2 ≤ xs.length) : 0 ≤ svarQ xs := by
  apply div_nonneg
  · apply List.sum_nonneg
    intro x hx
    obtain ⟨a, _, rfl⟩ := List.mem_map.mp hx
    exact mul_self_nonneg _
  · have : (2 : ℚ) ≤ (xs.length : ℚ) := by exact_mod_cast h2
    linarith

/-- C4: whenever the sample variance of the weighted-return series is
defined, the Sharpe-like metric is exactly 0 when the standard deviation is
exactly 0, and otherwise equals the mean daily return divided by the sample
standard deviation (the square root of the sample variance, which is then
nonzero). -/
theorem C4_sharpe_zero_guard (xs : List ℚ) (v : ℚ) (hv : pvar xs = some v) :
    0 ≤ v ∧
    (v = 0 → sharpeOf xs = some 0) ∧
    (v ≠ 0 → Real.sqrt (v : ℝ) ≠ 0 ∧
      sharpeOf xs = some ((pmean xs : ℝ) / Real.sqrt (v : ℝ))) := by
  have h2 : 2 ≤ xs.length := by
    by_contra h
    simp [pvar, h] at hv
  have hvv : v = svarQ xs := by
    simp [pvar, h2] at hv
    exact hv.symm
  have hnn : 0 ≤ v := hvv ▸ svarQ_nonneg xs h2
  refine ⟨hnn, ?_, ?_⟩
  · intro h0
    simp [sharpeOf, pstd, pvar, h2, ← hvv, h0]
  · intro hne
    have hpos : 0 < v := lt_of_le_of_ne hnn (Ne.symm hne)
    have hrpos : (0 : ℝ) < (v : ℝ) := by exact_mod_cast hpos
    have hs : Real.sqrt (v : ℝ) ≠ 0 := ne_of_gt (Real.sqrt_pos.mpr hrpos)
    refine ⟨hs, ?_⟩
    simp [sharpeOf, pstd, pvar, h2, ← hvv, hs]

/-- Witness for C4 at the concrete return series [0, 1], of variance 1/2. -/
theorem C4_sharpe_zero_guard_w :
    pvar [0, 1] = some (1 / 2) ∧
    (0 ≤ (1 / 2 : ℚ) ∧
      ((1 / 2 : ℚ) = 0 → sharpeOf [0, 1] = some 0) ∧
      ((1 / 2 : ℚ) ≠ 0 → Real.sqrt ((1 / 2 : ℚ) : ℝ) ≠ 0 ∧
        sharpeOf [0, 1] = some ((pmean [0, 1] : ℝ) / Real.sqrt ((1 / 2 : ℚ) : ℝ)))) :=
  ⟨by norm_num [pvar, svarQ, pmean],
    C4_sharpe_zero_guard [0, 1] (1 / 2) (by norm_num [pvar, svarQ, pmean])⟩

/-- The series delta.where(delta > 0, 0) of line 60: position 0 carries 0,
not NaN, because NaN > 0 is false and where replaces it with the fill value
0; position j holds the close-to-close rise clipped below at 0. -/
def gainList (c : List ℚ) : List ℚ :=
  match c with
  | [] => []
  | x :: xs => 0 :: List.zipWith (fun b a => max (b - a) 0) xs (x :: xs)

/-- The series -delta.where(delta < 0, 0) of line 61: position 0 carries 0;
position j holds the close-to-close drop clipped below at 0. -/
def lossList (c : List ℚ) : List ℚ :=
  match c with
  | [] => []
  | x :: xs => 0 :: List.zipWith (fun b a => max (a - b) 0) xs (x :: xs)

/-- gain.rolling(14).mean() of line 60 at index i. -/
def gainMean (c : List ℚ) (i : Nat) : Option ℚ := rollingMeanAt 14 (gainList c) i

/-- loss.rolling(14).mean() of line 61 at index i. -/
def lossMean (c : List ℚ) (i : Nat) : Option ℚ := rollingMeanAt 14 (lossList c) i

/-- IEEE-style value of one float cell: finite, NaN or a signed infinity. -/
inductive FVal where
  | nan : FVal
  | pinf : FVal
  | ninf : FVal
  | fin : ℚ → FVal
deriving DecidableEq

/-- IEEE division of two finite floats, as numpy evaluates gain / loss on
line 62: a positive number over 0 is +infinity, 0 over 0 is NaN. -/
def divFV (g l : ℚ) : FVal :=
  if l ≠ 0 then FVal.fin (g / l)
  else if 0 < g then FVal.pinf
  else if g < 0 then FVal.ninf
  else FVal.nan

/-- 100 - 100 / (1 + RS) of line 63 on the IEEE value of RS: an infinite RS
collapses to exactly 100, a NaN RS stays NaN. -/
def rsiOfRS : FVal → FVal
  | FVal.nan => FVal.nan
  | FVal.pinf => FVal.fin 100
  | FVal.ninf => FVal.fin 100
  | FVal.fin q => if 1 + q = 0 then FVal.ninf else FVal.fin (100 - 100 / (1 + q))

/-- Column RSI of fetch_data (lines 59-63) at index i; NaN while the 14-bar
windows are not yet full. -/
def rsiAt (c : List ℚ) (i : Nat) : FVal :=
  match gainMean c i, lossMean c i with
  | some g, some l => rsiOfRS (divFV g l)
  | _, _ => FVal.nan

theorem gainList_length (c : List ℚ) : (gainList c).length = c.length := by
  cases c with
  | nil => rfl
  | cons x xs => simp [gainList]

theorem lossList_length (c : List ℚ) : (lossList c).length = c.length := by
  cases c with
  | nil => rfl
  | cons x xs => simp [lossList]

theorem zipWith_maxsub_nonneg (f : ℚ → ℚ → ℚ) (hf : ∀ b a, 0 ≤ f b a) :
    ∀ (l₁ l₂ : List ℚ) (x : ℚ), x ∈ List.zipWith f l₁ l₂ → 0 ≤ x := by
  intro l₁
  induction l₁ with
  | nil => intro l₂ x hx; simp at hx
  | cons b t ih =>
    intro l₂ x hx
    cases l₂ with
    | nil => simp at hx
    | cons a s =>
      rcases List.mem_cons.mp hx with h | h
      · exact h ▸ hf b a
      · exact ih s x h

theorem gainList_nonneg (c : List ℚ) : ∀ x ∈ gainList c, 0 ≤ x := by
  cases c with
  | nil => simp [gainList]
  | cons y xs =>
    intro x hx
    rcases List.mem_cons.mp hx with h | h
    · simp [h]
    · exact zipWith_maxsub_nonneg _ (fun b a => le_max_right _ _) xs (y :: xs) x h

/-- A fifteen-bar strictly rising close series: every delta is +1, so the
14-bar loss window at the last bar has seen no down day. -/
def c15 : List ℚ := [1, 2, 3, 4, 5, 6, 7, 8, 9, 10, 11, 12, 13, 14, 15]

/-- C1 counterexample: at index 14 of a strictly rising close series, 14
deltas exist and the 14-bar trailing loss mean is exactly 0, yet the
computed RSI is the finite value 100, not an undefined cell: gain / loss is
+infinity there, and 100 - 100/(1 + inf) collapses to 100. -/
theorem C1_counterexample :
    lossMean c15 14 = some 0 ∧ rsiAt c15 14 = FVal.fin 100 ∧ rsiAt c15 14 ≠ FVal.nan := by
  have hg : gainMean c15 14 = some 1 := by
    norm_num [gainMean, rollingMeanAt, trailing, gainList, c15, max_def]
  have hl : lossMean c15 14 = some 0 := by
    norm_num [lossMean, rollingMeanAt, trailing, lossList, c15, max_def]
  have hr : rsiAt c15 14 = FVal.fin 100 := by
    rw [rsiAt, hg, hl]
    norm_num [divFV, rsiOfRS]
  exact ⟨hl, hr, by rw [hr]; simp⟩

/-- C1 amended: at any index with at least 14 deltas where the 14-bar loss
mean is exactly 0, the computation does not fail, but the RSI is not
uniformly undefined: the gain mean is defined and nonnegative there, the
RSI is exactly 100 whenever the gain mean is positive (RS is +infinity),
and it is NaN only when the gain mean is 0 as well. -/
theorem C1_rsi_at_zero_loss (c : List ℚ) (i : Nat) (h14 : 14 ≤ i) (hlen : i < c.length)
    (hl : lossMean c i = some 0) :
    ∃ g, gainMean c i = some g ∧ 0 ≤ g ∧
      rsiAt c i = (if 0 < g then FVal.fin 100 else FVal.nan) := by
  have hcond : 14 ≤ i + 1 ∧ i < (gainList c).length := by
    rw [gainList_length]; exact ⟨by omega, hlen⟩
  have hg : gainMean c i = some ((trailing 14 (gainList c) i).sum / (14 : ℚ)) := by
    simp [gainMean, rollingMeanAt, hcond.1, hcond.2]
  refine ⟨_, hg, ?_, ?_⟩
  · apply div_nonneg _ (by norm_num)
    apply List.sum_nonneg
    intro x hx
    exact gainList_nonneg c x (List.mem_of_mem_take (List.mem_of_mem_drop hx))
  · rw [rsiAt, hg, hl]
    set g := (trailing 14 (gainList c) i).sum / (14 : ℚ) with hgdef
    by_cases hpos : 0 < g
    · simp [divFV, hpos, rsiOfRS]
    · have hzero : ¬ g < 0 := by
        push_neg
        apply div_nonneg _ (by norm_num)
        apply List.sum_nonneg
        intro x hx
        exact gainList_nonneg c x (List.mem_of_mem_take (List.mem_of_mem_drop hx))
      simp [divFV, hpos, hzero, rsiOfRS]

/-- Witness for the amended C1 at the rising series c15, index 14. -/
theorem C1_rsi_at_zero_loss_w :
    (14 ≤ 14 ∧ 14 < c15.length ∧ lossMean c15 14 = some 0) ∧
    (∃ g, gainMean c15 14 = some g ∧ 0 ≤ g ∧
      rsiAt c15 14 = (if 0 < g then FVal.fin 100 else FVal.nan)) :=
  ⟨⟨by decide, by decide, by norm_num [lossMean, rollingMeanAt, trailing, lossList, c15, max_def]⟩,
    C1_rsi_at_zero_loss c15 14 (by decide) (by decide)
      (by norm_num [lossMean, rollingMeanAt, trailing, lossList, c15, max_def])⟩

/-- Python str.split on a single separator character: every occurrence
splits, empty pieces are kept, the empty string yields one empty piece. -/
def splitOnC (sep : Char) : List Char → List (List Char)
  | [] => [[]]
  | c :: cs =>
    if c = sep then [] :: splitOnC sep cs
    else
      match splitOnC sep cs with
      | [] => [[c]]
      | r :: rs => (c :: r) :: rs

/-- Characters removed by Python str.strip(). -/
def isSpaceC (c : Char) : Bool :=
  c == ' ' || c == '\t' || c == '\n' || c == '\r'

/-- Python str.strip(). -/
def trimC (cs : List Char) : List Char :=
  ((cs.dropWhile isSpaceC).reverse.dropWhile isSpaceC).reverse

/-- Python str.upper() on one ASCII character. -/
def upperC (c : Char) : Char :=
  if 'a' ≤ c ∧ c ≤ 'z' then Char.ofNat (c.toNat - 32) else c

/-- Numeric value of a decimal digit string. -/
def natOfDigits (ds : List Char) : Nat :=
  ds.foldl (fun n d => 10 * n + (d.toNat - 48)) 0

/-- Python float() on an unsigned decimal literal: digit runs around at most
one point, at least one digit in total; this embedding covers the plain
decimal spellings the allocation strings use (exponents and the inf and nan
spellings are out of scope for these inputs). -/
def parseDecQ (cs : List Char) : Option ℚ :=
  match splitOnC '.' cs with
  | [ip] => if ip ≠ [] ∧ ip.all Char.isDigit then some ((natOfDigits ip : ℚ)) else none
  | [ip, fp] =>
    if (ip ≠ [] ∨ fp ≠ []) ∧ ip.all Char.isDigit ∧ fp.all Char.isDigit then
      some ((natOfDigits ip : ℚ) + (natOfDigits fp : ℚ) / ((10 : ℚ) ^ fp.length))
    else none
  | _ => none

/-- Python float() with an optional leading sign. -/
def parseSignedQ (cs : List Char) : Option ℚ :=
  match cs with
  | '-' :: r => (parseDecQ r).map (fun q => -q)
  | '+' :: r => parseDecQ r
  | r => parseDecQ r

/-- One loop body of the allocation parser (lines 32-37): item.split(":")
must produce exactly a ticker and a percentage piece, the stripped
percentage must parse as a number, and the stored weight is that number
divided by 100, keyed by the stripped, uppercased ticker; any failure raises
inside the try and the item is skipped by except: pass. -/
def parseItemC (item : List Char) : Option (String × ℚ) :=
  match splitOnC ':' item with
  | [t, p] => (parseSignedQ (trimC p)).map (fun q => (String.mk ((trimC t).map upperC), q / 100))
  | _ => none

/-- Python dict assignment d[k] = v: overwrite the first (with unique keys,
the only) entry holding k in place, else append a new entry at the end. -/
def insertA : List (String × ℚ) → String → ℚ → List (String × ℚ)
  | [], k, v => [(k, v)]
  | e :: m, k, v => if e.1 == k then (k, v) :: m else e :: insertA m k v

/-- One iteration of the allocation loop (lines 32-37). -/
def dictStep (m : List (String × ℚ)) (item : List Char) : List (String × ℚ) :=
  match parseItemC item with
  | some e => insertA m e.1 e.2
  | none => m

/-- alloc_dict (lines 31-37): fold the comma-separated items of the
allocation input into a dict, skipping unparseable items. -/
def allocDict (s : String) : List (String × ℚ) :=
  (splitOnC ',' s.data).foldl dictStep []

/-- Warnings the allocation parser surfaces to the caller: lines 31-37 bind
only alloc_dict, and the except: pass arm communicates nothing, so the
surfaced warning list is identically empty. -/
def allocWarnings (_ : String) : List String := []

/-- Weight of the last entry of an association list that carries ticker t:
entries further down the list take precedence. -/
def lastHit (t : String) : List (String × ℚ) → Option ℚ
  | [] => none
  | e :: r =>
    match lastHit t r with
    | some w => some w
    | none => if e.1 == t then some e.2 else none

theorem insertA_lookup (m : List (String × ℚ)) (k : String) (v : ℚ) (t : String) :
    (insertA m k v).lookup t = if t == k then some v else m.lookup t := by
  induction m with
  | nil => cases h : (t == k) <;> simp [insertA, List.lookup, h]
  | cons e m ih =>
    by_cases he : e.1 = k
    · simp only [insertA, he, beq_self_eq_true, if_true, List.lookup]
      by_cases ht : t = k
      · simp [ht]
      · have h1 : (t == k) = false := beq_eq_false_iff_ne.mpr ht
        have h2 : (t == e.1) = false := beq_eq_false_iff_ne.mpr (he ▸ ht)
        simp [h1, h2]
    · have hek : (e.1 == k) = false := beq_eq_false_iff_ne.mpr he
      simp only [insertA, hek, if_false, List.lookup]
      by_cases ht : t = e.1
      · have h1 : (t == e.1) = true := beq_iff_eq.mpr ht
        have h2 : (t == k) = false := beq_eq_false_iff_ne.mpr (ht ▸ he)
        simp [h1, h2]
      · have h1 : (t == e.1) = false := beq_eq_false_iff_ne.mpr ht
        simp [h1, ih]

theorem insertA_keys (m : List (String × ℚ)) (k : String) (v : ℚ) :
    (insertA m k v).map Prod.fst =
      if k ∈ m.map Prod.fst then m.map Prod.fst else m.map Prod.fst ++ [k] := by
  induction m with
  | nil => simp [insertA]
  | cons e m ih =>
    by_cases he : e.1 = k
    · simp [insertA, he]
    · have hek : (e.1 == k) = false := beq_eq_false_iff_ne.mpr he
      have hke : ¬ (k = e.1) := fun h => he h.symm
      simp only [insertA, hek, if_false, List.map_cons, List.mem_cons, hke, false_or]
      by_cases hk : k ∈ m.map Prod.fst <;> simp [ih, hk]

theorem insertA_keys_nodup (m : List (String × ℚ)) (k : String) (v : ℚ)
    (h : (m.map Prod.fst).Nodup) : ((insertA m k v).map Prod.fst).Nodup := by
  rw [insertA_keys]
  split_ifs with hk
  · exact h
  · simp [List.nodup_append, h, hk]

theorem foldl_dictStep_keys_nodup (its : List (List Char)) :
    ∀ (m : List (String × ℚ)), (m.map Prod.fst).Nodup →
      (((its.foldl dictStep m)).map Prod.fst).Nodup := by
  induction its with
  | nil => intro m h; exact h
  | cons it its ih =>
    intro m h
    rw [List.foldl_cons]
    cases hp : parseItemC it with
    | none =>
      have hs : dictStep m it = m := by simp [dictStep, hp]
      rw [hs]
      exact ih m h
    | some e =>
      have hs : dictStep m it = insertA m e.1 e.2 := by simp [dictStep, hp]
      rw [hs]
      exact ih _ (insertA_keys_nodup m e.1 e.2 h)

theorem foldl_dictStep_lookup (t : String) (its : List (List Char)) :
    ∀ (m : List (String × ℚ)),
      (its.foldl dictStep m).lookup t =
        match lastHit t (its.filterMap parseItemC) with
        | some w => some w
        | none => m.lookup t := by
  induction its with
  | nil => intro m; simp [lastHit]
  | cons it its ih =>
    intro m
    rw [List.foldl_cons]
    cases hp : parseItemC it with
    | none =>
      have hs : dictStep m it = m := by simp [dictStep, hp]
      rw [hs, ih]
      simp [List.filterMap_cons, hp]
    | some e =>
      have hs : dictStep m it = insertA m e.1 e.2 := by simp [dictStep, hp]
      rw [hs, ih]
      simp only [List.filterMap_cons, hp, lastHit]
      cases hlast : lastHit t (its.filterMap parseItemC) with
      | some a => rfl
      | none =>
        rw [insertA_lookup]
        by_cases ht : e.1 = t
        · have h1 : (e.1 == t) = true := beq_iff_eq.mpr ht
          have h2 : (t == e.1) = true := beq_iff_eq.mpr ht.symm
          simp [h1, h2]
        · have h1 : (e.1 == t) = false := beq_eq_false_iff_ne.mpr ht
          have h2 : (t == e.1) = false := beq_eq_false_iff_ne.mpr (fun h => ht h.symm)
          simp [h1, h2]

theorem foldl_dictStep_filterMap (its : List (List Char)) :
    ∀ (m : List (String × ℚ)),
      its.foldl dictStep m =
        (its.filterMap parseItemC).foldl (fun acc e => insertA acc e.1 e.2) m := by
  induction its with
  | nil => intro m; rfl
  | cons it its ih =>
    intro m
    cases hp : parseItemC it with
    | none => simp [dictStep, hp, ih]
    | some e => simp [dictStep, hp, ih]

theorem getLast?_cons_match {α : Type} (a : α) (l : List α) :
    (a :: l).getLast? =
      match l.getLast? with
      | some x => some x
      | none => some a := by
  cases l with
  | nil => rfl
  | cons b r =>
    rw [List.getLast?_cons_cons]
    cases h : (b :: r).getLast? with
    | none => exact absurd (List.getLast?_eq_none_iff.mp h) (by simp)
    | some x => rfl

theorem lastHit_eq_filter_getLast (t : String) (l : List (String × ℚ)) :
    lastHit t l = ((l.filter (fun e => e.1 == t)).getLast?).map Prod.snd := by
  induction l with
  | nil => simp [lastHit]
  | cons e r ih =>
    rw [List.filter_cons]
    by_cases ht : e.1 = t
    · have h1 : (e.1 == t) = true := beq_iff_eq.mpr ht
      simp only [lastHit, ih, h1, if_true, getLast?_cons_match]
      cases h : (r.filter (fun e => e.1 == t)).getLast? with
      | none => simp [h]
      | some x => simp [h]
    · have h1 : (e.1 == t) = false := beq_eq_false_iff_ne.mpr ht
      simp only [lastHit, ih, h1, if_false]
      cases h : (r.filter (fun e => e.1 == t)).getLast? with
      | none => simp [h]
      | some x => simp [h]

/-- C10: the parsed allocation map holds at most one entry per ticker, and
the weight stored under a ticker is the weight of the LAST well-formed
comma-separated entry carrying that ticker (after stripping and
uppercasing): a later duplicate silently overwrites an earlier one. -/
theorem C10_later_entry_overwrites (s : String) (t : String) :
    ((allocDict s).map Prod.fst).Nodup ∧
    (allocDict s).lookup t =
      (((((splitOnC ',' s.data).filterMap parseItemC).filter
        (fun e => e.1 == t)).getLast?).map Prod.snd) := by
  refine ⟨foldl_dictStep_keys_nodup _ [] (by simp), ?_⟩
  rw [allocDict, foldl_dictStep_lookup, ← lastHit_eq_filter_getLast]
  cases h : lastHit t ((splitOnC ',' s.data).filterMap parseItemC) with
  | none => simp [List.lookup]
  | some w => rfl

/-- C2 counterexample: on the input A:40,BAD,B:60 the malformed middle item
BAD is skipped and both surrounding entries are parsed — skipping is indeed
non-fatal — but the skipped entry is NOT surfaced anywhere: the code binds
only alloc_dict and its warning list is empty, so BAD is silently
discarded. -/
theorem C2_counterexample :
    parseItemC ("BAD".data) = none ∧
    allocDict "A:40,BAD,B:60" = [("A", (40 : ℚ) / 100), ("B", (60 : ℚ) / 100)] ∧
    allocWarnings "A:40,BAD,B:60" = [] := by
  exact ⟨rfl, rfl, rfl⟩

/-- C2 amended: a malformed entry is skipped without aborting the rest of
the map — the parsed dict is exactly the dict folded from the items that do
parse — but skipped entries are silently discarded: the warning list the
code surfaces to the caller is empty for every input. -/
theorem C2_malformed_skipped_silently (s : String) :
    allocDict s =
      ((splitOnC ',' s.data).filterMap parseItemC).foldl (fun acc e => insertA acc e.1 e.2) [] ∧
    allocWarnings s = [] :=
  ⟨foldl_dictStep_filterMap (splitOnC ',' s.data) [], rfl⟩

/-- C9 counterexample: the allocation input A:200 parses to the single
weight 200/100 = 2, which lies outside [0,1]: the parser clamps nothing. -/
theorem C9_counterexample :
    allocDict "A:200" = [("A", (200 : ℚ) / 100)] ∧ ¬ ((200 : ℚ) / 100 ≤ 1) := by
  refine ⟨rfl, ?_⟩
  norm_num

/-- C9 amended: every parsed weight is the raw percentage divided by 100,
passed through with no clamping or validation; it lies in [0,1] exactly when
the entered percentage lies in [0,100]. -/
theorem C9_weight_is_unclamped_percent (item : List Char) (t : String) (w : ℚ)
    (h : parseItemC item = some (t, w)) :
    ∃ tp pp p, splitOnC ':' item = [tp, pp] ∧ parseSignedQ (trimC pp) = some p ∧
      w = p / 100 ∧ ((0 ≤ w ∧ w ≤ 1) ↔ (0 ≤ p ∧ p ≤ 100)) := by
  unfold parseItemC at h
  split at h
  case h_2 => exact absurd h (by simp)
  case h_1 tp pp heq =>
    rcases Option.map_eq_some'.mp h with ⟨p, hp, hpair⟩
    refine ⟨tp, pp, p, heq, hp, ?_, ?_⟩
    · exact (Prod.ext_iff.mp hpair).2.symm
    · have hw : w = p / 100 := (Prod.ext_iff.mp hpair).2.symm
      subst hw
      constructor
      · rintro ⟨h1, h2⟩
        constructor
        · by_contra hneg
          push_neg at hneg
          have : p / 100 < 0 := by
            apply div_neg_of_neg_of_pos hneg
            norm_num
          linarith
        · by_contra hneg
          push_neg at hneg
          have : 1 < p / 100 := by
            rw [lt_div_iff₀ (by norm_num : (0:ℚ) < 100)]
            linarith
          linarith
      · rintro ⟨h1, h2⟩
        constructor
        · positivity
        · rw [div_le_one (by norm_num : (0:ℚ) < 100)]
          linarith

/-- Witness for the amended C9 at the concrete item A:50. -/
theorem C9_weight_is_unclamped_percent_w :
    parseItemC ("A:50".data) = some ("A", (50 : ℚ) / 100) ∧
    (∃ tp pp p, splitOnC ':' ("A:50".data) = [tp, pp] ∧ parseSignedQ (trimC pp) = some p ∧
      (50 : ℚ) / 100 = p / 100 ∧
      ((0 ≤ (50 : ℚ) / 100 ∧ (50 : ℚ) / 100 ≤ 1) ↔ (0 ≤ p ∧ p ≤ 100))) :=
  ⟨rfl, C9_weight_is_unclamped_percent ("A:50".data) "A" ((50 : ℚ) / 100) rfl⟩

/-- One reindexed column of the prices DataFrame before filling: the value
of security s on each date of the shared index, NaN where s has no bar. -/
def colOn (idx : List Nat) (s : List (Nat × ℚ)) : List (Option ℚ) :=
  idx.map (fun d => s.lookup d)

/-- fillna(method=ffill) over one column (line 93), carrying the last
defined value forward; nothing is carried into a leading gap. -/
def ffillFrom (prev : Option ℚ) : List (Option ℚ) → List (Option ℚ)
  | [] => []
  | none :: xs => prev :: ffillFrom prev xs
  | some v :: xs => some v :: ffillFrom (some v) xs

/-- Forward-fill of one column, starting with nothing to carry. -/
def ffill (col : List (Option ℚ)) : List (Option ℚ) := ffillFrom none col

/-- Date index of the prices DataFrame built by lines 90-92: assigning the
first Close series to the empty DataFrame adopts that series' own index, and
every later column assignment reindexes onto the existing index, so the
shared index is the date index of the FIRST ticker, not the union of all
date indices. -/
def alignIdx (sl : List (List (Nat × ℚ))) : List Nat :=
  (sl.headD []).map Prod.fst

/-- The forward-filled columns of the prices DataFrame (lines 90-93), one
per constituent in weight-map order. -/
def pricesCols (sl : List (List (Nat × ℚ))) : List (List (Option ℚ)) :=
  sl.map (fun s => ffill (colOn (alignIdx sl) s))

/-- One cell of prices.pct_change() (line 94) as the float the program
computes: NaN on the first row and wherever the previous cell is NaN;
otherwise the IEEE quotient (q - p)/p, which at a zero previous price is a
signed infinity when the new price differs and NaN exactly when both prices
are 0 (pandas computes q/p - 1, identical to (q - p)/p for every finite
pair). -/
def retCol (col : List (Option ℚ)) (j : Nat) : FVal :=
  if j = 0 then FVal.nan
  else
    match col.getD (j - 1) none, col.getD j none with
    | some p, some q => divFV (q - p) p
    | _, _ => FVal.nan

/-- Whether date row j survives dropna() on the returns table (line 94):
dropna drops a row exactly when some constituent return cell is NaN;
infinite cells are kept. -/
def rowKept (sl : List (List (Nat × ℚ))) (j : Nat) : Bool :=
  (pricesCols sl).all (fun col => retCol col j != FVal.nan)

/-- Last defined value of a column prefix: the value forward-fill yields. -/
def lastSome (l : List (Option ℚ)) : Option ℚ := (l.filterMap id).getLast?

theorem ffillFrom_length (p : Option ℚ) (l : List (Option ℚ)) :
    (ffillFrom p l).length = l.length := by
  induction l generalizing p with
  | nil => rfl
  | cons x xs ih => cases x <;> simp [ffillFrom, ih]

theorem lastSome_none_cons (l : List (Option ℚ)) : lastSome (none :: l) = lastSome l := by
  simp [lastSome]

theorem lastSome_some_cons (v : ℚ) (l : List (Option ℚ)) :
    lastSome (some v :: l) =
      match lastSome l with
      | some w => some w
      | none => some v := by
  simp only [lastSome, List.filterMap_cons, id]
  rw [getLast?_cons_match]
  cases h : (List.filterMap id l).getLast? <;> rfl

theorem ffillFrom_getD (l : List (Option ℚ)) :
    ∀ (p : Option ℚ) (j : Nat), j < l.length →
      (ffillFrom p l).getD j none =
        match lastSome (l.take (j + 1)) with
        | some w => some w
        | none => p := by
  induction l with
  | nil => intro p j h; simp at h
  | cons x xs ih =>
    intro p j h
    cases x with
    | none =>
      cases j with
      | zero => simp [ffillFrom, lastSome]
      | succ k =>
        have hk : k < xs.length := by simpa using Nat.lt_of_succ_lt_succ h
        simp only [ffillFrom, List.getD_cons_succ, List.take_succ_cons, lastSome_none_cons]
        exact ih p k hk
    | some v =>
      cases j with
      | zero => simp [ffillFrom, lastSome]
      | succ k =>
        have hk : k < xs.length := by simpa using Nat.lt_of_succ_lt_succ h
        simp only [ffillFrom, List.getD_cons_succ, List.take_succ_cons, lastSome_some_cons]
        rw [ih (some v) k hk]
        cases hl : lastSome (xs.take (k + 1)) <;> rfl

theorem ffill_getD (col : List (Option ℚ)) (j : Nat) (h : j < col.length) :
    (ffill col).getD j none = lastSome (col.take (j + 1)) := by
  rw [ffill, ffillFrom_getD col none j h]
  cases hl : lastSome (col.take (j + 1)) <;> rfl

theorem lastSome_take_mono (col : List (Option ℚ)) (a b : Nat) (hab : a ≤ b)
    (h : (lastSome (col.take (a + 1))).isSome) : (lastSome (col.take (b + 1))).isSome := by
  have hpre : col.take (a + 1) = (col.take (b + 1)).take (a + 1) := by
    rw [List.take_take]
    congr 1
    omega
  have hne : (col.take (a + 1)).filterMap id ≠ [] := by
    intro hnil
    rw [lastSome, hnil] at h
    simp at h
  have hsplit : (col.take (b + 1)).filterMap id =
      (col.take (a + 1)).filterMap id ++ ((col.take (b + 1)).drop (a + 1)).filterMap id := by
    rw [hpre, ← List.filterMap_append, List.take_append_drop]
  rw [lastSome, hsplit, Option.isSome_iff_ne_none]
  intro hnone
  have hnil := List.getLast?_eq_none_iff.mp hnone
  rcases List.append_eq_nil.mp hnil with ⟨h1, _⟩
  exact hne h1

theorem retCol_ffill_ne_nan (col : List (Option ℚ)) (j : Nat) :
    retCol (ffill col) j ≠ FVal.nan ↔
      (1 ≤ j ∧ ∃ p q, (ffill col).getD (j - 1) none = some p ∧
        (ffill col).getD j none = some q ∧ ¬(p = 0 ∧ q = 0)) := by
  cases j with
  | zero => simp [retCol]
  | succ k =>
    have hne : ¬ (k + 1 = 0) := Nat.succ_ne_zero k
    simp only [retCol, if_neg hne, Nat.succ_sub_one]
    cases h1 : (ffill col).getD k none with
    | none => cases h2 : (ffill col).getD (k + 1) none <;> simp
    | some p =>
      cases h2 : (ffill col).getD (k + 1) none with
      | none => simp
      | some q =>
        constructor
        · intro h
          refine ⟨by omega, p, q, rfl, rfl, ?_⟩
          rintro ⟨hp0, hq0⟩
          subst hp0
          subst hq0
          simp [divFV] at h
        · rintro ⟨-, p', q', hp', hq', hnz⟩
          cases hp'
          cases hq'
          by_cases hp0 : p = 0
          · subst hp0
            have hq0 : q ≠ 0 := fun h => hnz ⟨rfl, h⟩
            rcases lt_or_gt_of_ne hq0 with hlt | hgt
            · simp [divFV, not_lt.mpr hlt.le, hlt]
            · simp [divFV, hgt]
          · simp [divFV, hp0]

theorem colOn_length (idx : List Nat) (s : List (Nat × ℚ)) :
    (colOn idx s).length = idx.length := by
  simp [colOn]

/-- Date series of security A: bars on dates 1, 2 and 4, a gap at date 3. -/
def sA : List (Nat × ℚ) := [(1, 10), (2, 11), (4, 12)]

/-- Date series of security B: bars on all of dates 1, 2, 3 and 4. -/
def sB : List (Nat × ℚ) := [(1, 20), (2, 21), (3, 22), (4, 23)]

/-- C3 counterexample: with A (dates 1,2,4) the first constituent and B
(dates 1,2,3,4) the second, date 3 belongs to the union of the date indices
(it is a date of B) but is absent from the aligned index, because column
assignment to a DataFrame reindexes onto the FIRST series' dates; the table
has no row for date 3 at all, rather than a row holding A's forward-filled
close from date 2. -/
theorem C3_counterexample :
    3 ∈ sB.map Prod.fst ∧ 3 ∉ alignIdx [sA, sB] := by
  constructor
  · decide
  · decide

/-- C3 amended: constituent close series are aligned onto the date index of
the FIRST constituent, not onto the union (a date present only in a later
constituent is dropped).  On that index a security's cell is forward-filled
from the last defined value at or before that row only — never back-filled,
so rows before the security's first observation on the index stay
undefined — and a returns row j survives dropna exactly when j is at least
1 and, for every constituent, the forward-filled prices at rows j-1 and j
are both defined and not both zero (a 0/0 price pair makes the return cell
NaN and the row is dropped; a zero previous price with a different new
price yields an infinite cell, which dropna keeps). -/
theorem C3_alignment_first_index (sl : List (List (Nat × ℚ))) (s : List (Nat × ℚ)) (j : Nat)
    (hs : s ∈ sl) (hj : j < (alignIdx sl).length) :
    alignIdx sl = (sl.headD []).map Prod.fst ∧
    (ffill (colOn (alignIdx sl) s)).getD j none =
      lastSome ((colOn (alignIdx sl) s).take (j + 1)) ∧
    (rowKept sl j = true ↔
      1 ≤ j ∧ ∀ col ∈ pricesCols sl, ∃ p q, col.getD (j - 1) none = some p ∧
        col.getD j none = some q ∧ ¬(p = 0 ∧ q = 0)) := by
  refine ⟨rfl, ?_, ?_⟩
  · exact ffill_getD _ j (by rw [colOn_length]; exact hj)
  · have hslne : sl ≠ [] := by
      intro hnil
      rw [hnil] at hj
      simp [alignIdx] at hj
    constructor
    · intro h
      have hall := List.all_eq_true.mp h
      have hhead : ffill (colOn (alignIdx sl) (sl.headD [])) ∈ pricesCols sl := by
        rcases List.exists_cons_of_ne_nil hslne with ⟨u, us, rfl⟩
        exact List.mem_map.mpr ⟨u, List.mem_cons_self u us, rfl⟩
      have h1 : 1 ≤ j := by
        have hh := hall _ hhead
        rw [bne_iff_ne] at hh
        exact ((retCol_ffill_ne_nan (colOn (alignIdx sl) (sl.headD [])) j).mp hh).1
      refine ⟨h1, ?_⟩
      intro col hcol
      have hc := hall _ hcol
      rw [bne_iff_ne] at hc
      rcases List.mem_map.mp hcol with ⟨u, -, rfl⟩
      exact ((retCol_ffill_ne_nan (colOn (alignIdx sl) u) j).mp hc).2
    · rintro ⟨h1, h2⟩
      apply List.all_eq_true.mpr
      intro col hcol
      rw [bne_iff_ne]
      rcases List.mem_map.mp hcol with ⟨u, hu, rfl⟩
      exact (retCol_ffill_ne_nan (colOn (alignIdx sl) u) j).mpr
        ⟨h1, h2 _ (List.mem_map.mpr ⟨u, hu, rfl⟩)⟩

/-- Witness for the amended C3 on the concrete pair of series A, B. -/
theorem C3_alignment_first_index_w :
    (sB ∈ [sA, sB] ∧ 2 < (alignIdx [sA, sB]).length) ∧
    (alignIdx [sA, sB] = (([sA, sB].headD []).map Prod.fst) ∧
      (ffill (colOn (alignIdx [sA, sB]) sB)).getD 2 none =
        lastSome ((colOn (alignIdx [sA, sB]) sB).take (2 + 1)) ∧
      (rowKept [sA, sB] 2 = true ↔
        1 ≤ 2 ∧ ∀ col ∈ pricesCols [sA, sB], ∃ p q, col.getD (2 - 1) none = some p ∧
          col.getD 2 none = some q ∧ ¬(p = 0 ∧ q = 0))) :=
  ⟨⟨by decide, by decide⟩,
    C3_alignment_first_index [sA, sB] sB 2 (by decide) (by decide)⟩

/-- One date of returns.mul(weights, axis=1) followed by sum(axis=1)
(lines 95-96): the plain weighted sum of the return row, with no
renormalization by the sum of the weights. -/
def portRow (ws rs : List ℚ) : ℚ := (List.zipWith (fun w x => w * x) ws rs).sum

/-- The portfolio return series over a table of aligned return rows
(line 96). -/
def portfolioSeries (ws : List ℚ) (rows : List (List ℚ)) : List ℚ :=
  rows.map (fun rs => portRow ws rs)

theorem portRow_replicate (ws : List ℚ) (r : ℚ) :
    portRow ws (List.replicate ws.length r) = ws.sum * r := by
  induction ws with
  | nil => simp [portRow]
  | cons w t ih =>
    simp only [portRow, List.length_cons, List.replicate_succ, List.zipWith_cons_cons,
      List.sum_cons] at *
    rw [ih]
    ring

/-- C8: the portfolio return of a date row is the plain weighted sum of the
constituent returns — identical constituent returns r combine to
(sum of weights) * r, so the weights are NOT renormalized — and when every
aligned row carries one common return r and the weights sum to 1, the whole
portfolio return series is constantly r. -/
theorem C8_weighted_sum_no_renorm (ws : List ℚ) (rows : List (List ℚ)) (r : ℚ) :
    portRow ws (List.replicate ws.length r) = ws.sum * r ∧
    ((∀ row ∈ rows, row = List.replicate ws.length r) → ws.sum = 1 →
      portfolioSeries ws rows = List.replicate rows.length r) := by
  refine ⟨portRow_replicate ws r, ?_⟩
  intro hrows hsum
  induction rows with
  | nil => simp [portfolioSeries]
  | cons row rest ih =>
    have hrow : row = List.replicate ws.length r := hrows row (List.mem_cons_self row rest)
    have hrest : portfolioSeries ws rest = List.replicate rest.length r :=
      ih (fun q hq => hrows q (List.mem_cons_of_mem row hq))
    simp only [portfolioSeries, List.map_cons, List.length_cons, List.replicate_succ]
    rw [hrow, portRow_replicate ws r, hsum, one_mul]
    exact congrArg (List.cons r) (by simpa [portfolioSeries] using hrest)

/-- Witness for C8 with weights summing to 1 and one common return row. -/
theorem C8_weighted_sum_no_renorm_w :
    (portRow [1 / 2, 1 / 2] (List.replicate ([1 / 2, 1 / 2] : List ℚ).length 3) =
      ([1 / 2, 1 / 2] : List ℚ).sum * 3) ∧
    ((∀ row ∈ ([[3, 3]] : List (List ℚ)), row = List.replicate ([1 / 2, 1 / 2] : List ℚ).length 3) ∧
      ([1 / 2, 1 / 2] : List ℚ).sum = 1 ∧
      portfolioSeries [1 / 2, 1 / 2] [[3, 3]] = List.replicate ([[3, 3]] : List (List ℚ)).length 3) :=
  ⟨(C8_weighted_sum_no_renorm [1 / 2, 1 / 2] [[3, 3]] 3).1,
    by
      have hrows : ∀ row ∈ ([[3, 3]] : List (List ℚ)),
          row = List.replicate ([1 / 2, 1 / 2] : List ℚ).length 3 := by
        intro row hrow
        simp only [List.mem_singleton] at hrow
        rw [hrow]
        rfl
      have hsum : ([1 / 2, 1 / 2] : List ℚ).sum = 1 := by norm_num
      exact ⟨hrows, hsum, (C8_weighted_sum_no_renorm [1 / 2, 1 / 2] [[3, 3]] 3).2 hrows hsum⟩⟩

end FinDash
